import Mathlib

/-!
# Verification of the Baize incremental semantic indexing engine

Shallow embedding of the core of the `baize-obsidain-plugin` repository:

* `MarkdownChunker` (`src/domain/chunking/markdown-chunker.ts`): frontmatter
  stripping, fenced-code-block detection, heading-based sectioning, and
  size-bounded refinement of sections into chunks.
* `LanceAdapter` (`src/infrastructure/database/lance-adapter.ts`): the vector
  store operations `upsert`, `delete` and `search` over an optional table of
  records (the `Option` is `null`-ness of `this.table`, i.e. whether `init()`
  has run successfully).
* `IndexScheduler` (scheduler source file): the deduplicated path queue,
  the serial drain loop and the per-file indexing step.

Strings are modelled as `List Char` (one element per UTF-16 code unit of the
JavaScript string; all reasoning stays inside the basic multilingual plane,
where JS code units and code points coincide).  JavaScript's `slice` with
negative-index wrapping is modelled by `jsSlice`.  Numbers that JS stores as
doubles are modelled by `Int`/`Nat` where they are integral, and by `ℚ` where
fractional values occur (`overlapThreshold`, `chunkSize * 1.5`, scores);
at the option values appearing in the repository the double arithmetic is
exact, so the rational model agrees with the JS semantics.
-/

namespace Baize

/-- A JavaScript string, one list element per UTF-16 code unit. -/
abbrev Str := List Char

/-- `l.slice(a, b)` for already-normalised natural indices. -/
def sliceN (l : Str) (a b : Nat) : Str := (l.take b).drop a

/-- Normalisation of a JS `slice` index: negative indices count from the end,
and the result is clamped to `[0, len]`. -/
def jsNorm (len : Nat) (i : Int) : Nat :=
  if i < 0 then (max 0 ((len : Int) + i)).toNat else min i.toNat len

/-- JavaScript `String.prototype.slice` on the `List Char` model. -/
def jsSlice (l : Str) (a b : Int) : Str :=
  sliceN l (jsNorm l.length a) (jsNorm l.length b)

/-- JavaScript `String.prototype.lastIndexOf` for a single-character needle
(`-1` when absent). -/
def lastIndexOfC (l : Str) (c : Char) : Int :=
  match l.reverse.findIdx? (· = c) with
  | some i => (l.length : Int) - 1 - i
  | none => -1

/-- Number of occurrences of a character (used for
`text.split("\n").length - 1` and the newline counts in `createChunk`). -/
def countChar (l : Str) (c : Char) : Nat := (l.filter (· = c)).length

/-- The backtick character (code unit 96). -/
def backtickChar : Char := Char.ofNat 96

/-- JavaScript's `\s` character class (WhiteSpace ∪ LineTerminator). -/
def jsIsSpace (c : Char) : Bool :=
  c = ' ' || c = '\t' || c = '\n' || c = '\r' ||
  c = '\x0b' || c = '\x0c' || c = Char.ofNat 0xa0 || c = Char.ofNat 0xfeff ||
  c = Char.ofNat 0x1680 || (Char.ofNat 0x2000 ≤ c && c ≤ Char.ofNat 0x200a) ||
  c = Char.ofNat 0x2028 || c = Char.ofNat 0x2029 ||
  c = Char.ofNat 0x202f || c = Char.ofNat 0x205f || c = Char.ofNat 0x3000

/-- JavaScript line terminators (what `.` refuses to match and what the
multiline anchors `^`/`$` break at). -/
def isLineTerm (c : Char) : Bool :=
  c = '\n' || c = '\r' || c = Char.ofNat 0x2028 || c = Char.ofNat 0x2029

/-- JavaScript `String.prototype.trim`. -/
def jsTrim (l : Str) : Str :=
  ((l.dropWhile jsIsSpace).reverse.dropWhile jsIsSpace).reverse

/-- Length of the longest prefix satisfying `p`. -/
def countLeading (p : Char → Bool) (l : Str) : Nat := (l.takeWhile p).length

/-! ## Chunking options (`src/domain/chunking/strategies.ts`) -/

/-- `ChunkingStrategy` enum. -/
inductive ChunkingStrategy
  | fixed_length
  | heading_split
  | semantic_paragraph
  | hybrid
deriving DecidableEq, Repr

/-- `ChunkingOptions`.  `overlapThreshold` is a `ℚ`: the JS double `0.15`
satisfies `Math.floor(500 * 0.15) = 75 = ⌊500 * (3/20)⌋`, so the rational
model agrees with the double arithmetic at the default configuration. -/
structure ChunkingOptions where
  strategy : ChunkingStrategy
  chunkSize : Nat
  overlapThreshold : ℚ
  minChunkSize : Nat
  keepFrontmatter : Bool
  resolveEmbeds : Bool
deriving DecidableEq, Repr

/-- `DEFAULT_CHUNKING_OPTIONS`. -/
def DEFAULT_CHUNKING_OPTIONS : ChunkingOptions :=
  { strategy := .hybrid
    chunkSize := 500
    overlapThreshold := 3 / 20
    minChunkSize := 50
    keepFrontmatter := false
    resolveEmbeds := false }

/-! ## Chunk data model (`src/domain/models/baize-chunk.ts`,
`src/infrastructure/database/schema.ts`) -/

/-- `ChunkMetadata`.  `headings` entries are `Option Str` because the
JS heading-path array can contain holes (`undefined` slots) when a deep
heading appears without intermediate levels. -/
structure ChunkMetadata where
  title : Str
  headings : List (Option Str)
  tags : List Str
  file_size : Int
  file_mtime : Int
deriving DecidableEq, Repr

/-- `BaizeChunk`.  Offsets are `Int` because they are sums involving the
(possibly negative) refinement cursor, which JS holds as a number. -/
structure BaizeChunk where
  index : Nat
  text : Str
  offsetStart : Int
  offsetEnd : Int
  lineStart : Int
  lineEnd : Int
  vectorId : Str
  metadata : ChunkMetadata
deriving DecidableEq, Repr

/-! ## `MarkdownChunker.stripFrontmatter`

The source matches `/^---\r?\n([\s\S]*?)\r?\n---\r?\n/` and, unless
`keepFrontmatter` is set, drops the match and records its length and its
newline count. -/

/-- Result of `stripFrontmatter`. -/
structure StripResult where
  content : Str
  offset : Nat
  lineOffset : Nat
deriving DecidableEq, Repr

/-- Match `\r?\n` at position `i` (greedy `\r?`); returns the matched length. -/
def matchNl (l : Str) (i : Nat) : Option Nat :=
  if l.getD i ' ' = '\r' && l.getD (i + 1) ' ' = '\n' then some 2
  else if l.getD i ' ' = '\n' then some 1
  else none

/-- Match the literal `---` at position `i`. -/
def matchDashes (l : Str) (i : Nat) : Bool :=
  l.getD i ' ' = '-' && l.getD (i + 1) ' ' = '-' && l.getD (i + 2) ' ' = '-'

/-- Match `\r?\n---\r?\n` at position `k`; returns the end position of the
whole frontmatter match. -/
def matchCloseAt (l : Str) (k : Nat) : Option Nat :=
  match matchNl l k with
  | none => none
  | some n1 =>
    if matchDashes l (k + n1) then
      match matchNl l (k + n1 + 3) with
      | none => none
      | some n2 => some (k + n1 + 3 + n2)
    else none

/-- Lazy scan for the closing delimiter: the smallest `k` at which
`\r?\n---\r?\n` matches (the `[\s\S]*?` group is non-greedy). -/
def findCloseAux (l : Str) (k : Nat) : Nat → Option Nat
  | 0 => none
  | fuel + 1 =>
    match matchCloseAt l k with
    | some e => some e
    | none => findCloseAux l (k + 1) fuel

/-- `MarkdownChunker.stripFrontmatter`. -/
def stripFrontmatter (opts : ChunkingOptions) (text : Str) : StripResult :=
  let fm : Option Nat :=
    if matchDashes text 0 then
      match matchNl text 3 with
      | some n => findCloseAux text (3 + n) (text.length + 1)
      | none => none
    else none
  match fm with
  | some e =>
    if opts.keepFrontmatter then ⟨text, 0, 0⟩
    else ⟨text.drop e, e, countChar (text.take e) '\n'⟩
  | none => ⟨text, 0, 0⟩

/-! ## `MarkdownChunker.findCodeBlocks`

`/```[\s\S]*?```/g`: repeatedly find the next literal ` ``` `, then the
closest closing ` ``` ` at distance ≥ 3; record `[match.index, lastIndex)`
and continue scanning from `lastIndex`. -/

/-- Three consecutive backticks at position `i`? -/
def isTicks3 (l : Str) (i : Nat) : Bool :=
  l.getD i ' ' = backtickChar && l.getD (i + 1) ' ' = backtickChar &&
    l.getD (i + 2) ' ' = backtickChar

/-- First position `≥ k` holding three consecutive backticks. -/
def findTicksFrom (l : Str) (k : Nat) : Nat → Option Nat
  | 0 => none
  | fuel + 1 =>
    if l.length ≤ k then none
    else if isTicks3 l k then some k
    else findTicksFrom l (k + 1) fuel

/-- The `regex.exec` loop of `findCodeBlocks`. -/
def findCodeBlocksAux (l : Str) (p : Nat) : Nat → List (Nat × Nat)
  | 0 => []
  | fuel + 1 =>
    match findTicksFrom l p (l.length + 1) with
    | none => []
    | some o =>
      match findTicksFrom l (o + 3) (l.length + 1) with
      | none => []
      | some c => (o, c + 3) :: findCodeBlocksAux l (c + 3) fuel

/-- `MarkdownChunker.findCodeBlocks`: character ranges `[start, lastIndex)`
of all fenced code blocks. -/
def findCodeBlocks (l : Str) : List (Nat × Nat) := findCodeBlocksAux l 0 (l.length + 1)

/-! ## `MarkdownChunker.splitByHeadings`

The heading regex is `/^(#{1,6})\s+(.+)$/gm`.  The matcher below follows the
JS semantics: `^` matches at position 0 or after a line terminator; `#{1,6}`
is a greedy bounded repetition (7 or more hashes fail); `\s+` is greedy with
backtracking; `.` excludes line terminators; `$` holds before a line
terminator or at the end of input. -/

/-- One heading match: `index`/`stop` are `match.index` and the regex
`lastIndex`, `level` is the hash count, `title` is the raw second group. -/
structure HeadMatch where
  index : Nat
  stop : Nat
  level : Nat
  title : Str
deriving DecidableEq, Repr

/-- Backtracking for `\s+(.+)$` after the hashes: try whitespace runs of
decreasing length `m`, succeeding as soon as `.+` can match at least one
character. -/
def headBacktrack (j h : Nat) (rest : Str) : Nat → Option HeadMatch
  | 0 => none
  | m + 1 =>
    let after := rest.drop (m + 1)
    let t := countLeading (fun c => !(isLineTerm c)) after
    if t = 0 then headBacktrack j h rest m
    else some { index := j, stop := j + h + (m + 1) + t, level := h, title := after.take t }

/-- Attempt `(#{1,6})\s+(.+)$` at position `j` (the caller checks `^`). -/
def headMatchAt (text : Str) (j : Nat) : Option HeadMatch :=
  let suf := text.drop j
  let h := countLeading (· = '#') suf
  if h = 0 || 6 < h then none
  else
    let rest := suf.drop h
    let mmax := countLeading jsIsSpace rest
    if mmax = 0 then none else headBacktrack j h rest mmax

/-- Is `j` a valid start for the multiline `^` anchor? -/
def isLineStart (text : Str) (j : Nat) : Bool :=
  j = 0 || isLineTerm (text.getD (j - 1) ' ')

/-- First heading match starting at a position `≥ j`. -/
def findHeadAux (text : Str) (j : Nat) : Nat → Option HeadMatch
  | 0 => none
  | fuel + 1 =>
    if text.length ≤ j then none
    else
      match if isLineStart text j then headMatchAt text j else none with
      | some m => some m
      | none => findHeadAux text (j + 1) fuel

/-- All heading matches, in document order (the `regex.exec` loop with the
`g` flag: each search resumes at the previous match's `lastIndex`). -/
def allHeadsAux (text : Str) (L : Nat) : Nat → List HeadMatch
  | 0 => []
  | fuel + 1 =>
    match findHeadAux text L (text.length + 1) with
    | none => []
    | some m => m :: allHeadsAux text m.stop fuel

/-- All heading matches of a document. -/
def allHeads (text : Str) : List HeadMatch := allHeadsAux text 0 (text.length + 1)

/-- A section produced by `splitByHeadings` (interface `Section`). -/
structure MdSection where
  text : Str
  offsetStart : Nat
  lineStart : Nat
  headings : List (Option Str)
deriving DecidableEq, Repr

/-- The heading-path update
`currentHeadings = currentHeadings.slice(0, level - 1);`
`currentHeadings[level - 1] = `# ${title}`;`
including the holes (`none`) JS creates when the array is shorter than
`level - 1`.  Note the stored marker is always a single `#`. -/
def updateHeadings (cur : List (Option Str)) (level : Nat) (title : Str) :
    List (Option Str) :=
  let t := cur.take (level - 1)
  t ++ List.replicate (level - 1 - t.length) none ++ [some ('#' :: ' ' :: title)]

/-- The body of the `splitByHeadings` loop, folded over the match list.
`lastIndex`/`lastLineCount`/`cur` are the loop variables. -/
def splitByHeadingsAux (text : Str) (baseOffset baseLine : Nat) :
    List HeadMatch → Nat → Nat → List (Option Str) → List MdSection
  | [], lastIndex, lastLineCount, cur =>
    let rem := text.drop lastIndex
    if (jsTrim rem).length ≠ 0 then
      [⟨rem, baseOffset + lastIndex, baseLine + lastLineCount + 1, cur⟩]
    else []
  | m :: ms, lastIndex, lastLineCount, cur =>
    let pre : List MdSection :=
      if lastIndex < m.index then
        let sectionText := sliceN text lastIndex m.index
        if (jsTrim sectionText).length ≠ 0 then
          [⟨sectionText, baseOffset + lastIndex, baseLine + lastLineCount + 1, cur⟩]
        else []
      else []
    pre ++ splitByHeadingsAux text baseOffset baseLine ms m.index
      (countChar (text.take m.index) '\n')
      (updateHeadings cur m.level (jsTrim m.title))

/-- `MarkdownChunker.splitByHeadings`. -/
def splitByHeadings (text : Str) (baseOffset baseLine : Nat) : List MdSection :=
  splitByHeadingsAux text baseOffset baseLine (allHeads text) 0 0 []

/-! ## `MarkdownChunker.refineSection` and `createChunk` -/

/-- `MarkdownChunker.createChunk`. -/
def createChunk (s : MdSection) (chunkText : Str) (relativeOffset : Int)
    (fileTitle : Str) : BaizeChunk :=
  let lineCount : Int := countChar chunkText '\n'
  let precedingText := jsSlice s.text 0 relativeOffset
  let precedingLines : Int := countChar precedingText '\n'
  { index := 0
    text := chunkText
    offsetStart := (s.offsetStart : Int) + relativeOffset
    offsetEnd := (s.offsetStart : Int) + relativeOffset + chunkText.length
    lineStart := (s.lineStart : Int) + precedingLines
    lineEnd := (s.lineStart : Int) + precedingLines + lineCount
    vectorId := []
    metadata :=
      { title := fileTitle
        headings := s.headings
        tags := []
        file_size := 0
        file_mtime := 0 } }

/-- The boundary-snapping step of `refineSection`: look back up to 100
characters from the naive cut for the last newline, else the last sentence
terminator, and snap there when it lies beyond index 50 of the lookback. -/
def snapEnd (text : Str) (cursor e0 : Int) : Int :=
  let lookStart := max cursor (e0 - 100)
  let lookback := jsSlice text lookStart e0
  let lastNewline := lastIndexOfC lookback '\n'
  let lastSentence :=
    max (max (lastIndexOfC lookback '。') (lastIndexOfC lookback '.'))
      (max (lastIndexOfC lookback '?') (lastIndexOfC lookback '!'))
  if 50 < lastNewline then lookStart + lastNewline + 1
  else if 50 < lastSentence then lookStart + lastSentence + 1
  else e0

/-- The code-block adjustment of `refineSection`: the first recorded block
strictly containing the global end either extends the cut to its end (when
`bEnd - sectionGlobalStart ≤ chunkSize * 1.5`) or retreats the cut to its
start. -/
def adjustEnd (opts : ChunkingOptions) (blocks : List (Nat × Nat))
    (off cursor e : Int) : Int :=
  match blocks with
  | [] => e
  | (bS, bT) :: rest =>
    if (bS : Int) < off + e ∧ off + e < (bT : Int) then
      if ((bT : ℚ) - ((off + cursor : Int) : ℚ)) ≤ (opts.chunkSize : ℚ) * (3 / 2) then
        (bT : Int) - off
      else (bS : Int) - off
    else adjustEnd opts rest off cursor e

/-- End-of-window choice for one iteration of the refinement loop. -/
def chooseEnd (opts : ChunkingOptions) (blocks : List (Nat × Nat)) (s : MdSection)
    (cursor : Int) : Int :=
  let e0 : Int := cursor + opts.chunkSize
  if e0 < (s.text.length : Int) then
    adjustEnd opts blocks (s.offsetStart : Int) cursor (snapEnd s.text cursor e0)
  else e0

/-- The `while (cursor < text.length)` loop of `refineSection`, with fuel.
The source loop does not terminate on some inputs (a long code block can pin
`cursor = end` forever), so exhausted fuel yields `none` — the model of a
hang. -/
def refineLoop (opts : ChunkingOptions) (s : MdSection)
    (blocks : List (Nat × Nat)) (fileTitle : Str) (overlap : Int) :
    Nat → Int → List BaizeChunk → Option (List BaizeChunk)
  | 0, _, _ => none
  | fuel + 1, cursor, acc =>
    if cursor < (s.text.length : Int) then
      let e1 := chooseEnd opts blocks s cursor
      let chunkText := jsSlice s.text cursor e1
      let acc2 :=
        if opts.minChunkSize ≤ (jsTrim chunkText).length ∨ cursor = 0 then
          acc ++ [createChunk s chunkText cursor fileTitle]
        else acc
      let nextCursor := e1 - overlap
      let cursor2 := if nextCursor ≤ cursor then e1 else nextCursor
      if (s.text.length : Int) - overlap ≤ cursor2 ∧ cursor2 < (s.text.length : Int) then
        some acc2
      else refineLoop opts s blocks fileTitle overlap fuel cursor2 acc2
    else some acc

/-- `MarkdownChunker.refineSection`. -/
def refineSection (opts : ChunkingOptions) (s : MdSection)
    (blocks : List (Nat × Nat)) (fileTitle : Str) : Option (List BaizeChunk) :=
  if s.text.length ≤ opts.chunkSize then
    some [createChunk s s.text 0 fileTitle]
  else
    let overlap : Int := ⌊(opts.chunkSize : ℚ) * opts.overlapThreshold⌋
    refineLoop opts s blocks fileTitle overlap
      (2 * s.text.length + blocks.length + 8) 0 []

/-- Decimal digits of a natural number (for `${filePath}::${index}`). -/
def natDigits (n : Nat) : Str := Nat.toDigits 10 n

/-- The global renumbering pass of `chunk`:
`sc.index = chunkGlobalIndex++; sc.vectorId = `${filePath}::${sc.index}`;`. -/
def renumber (filePath : Str) : Nat → List BaizeChunk → List BaizeChunk
  | _, [] => []
  | i, c :: cs =>
    { c with index := i, vectorId := filePath ++ ':' :: ':' :: natDigits i } ::
      renumber filePath (i + 1) cs

/-- `MarkdownChunker.chunk`.  `none` models non-termination of the source
(see `refineLoop`). -/
def chunkOpt (opts : ChunkingOptions) (text filePath fileTitle : Str) :
    Option (List BaizeChunk) :=
  let sr := stripFrontmatter opts text
  let blocks := findCodeBlocks sr.content
  let sections := splitByHeadings sr.content sr.offset sr.lineOffset
  (sections.mapM (fun s => refineSection opts s blocks fileTitle)).map
    (fun ls => renumber filePath 0 ls.flatten)

/-! ## `LanceAdapter` (`src/infrastructure/database/lance-adapter.ts`)

The LanceDB table is modelled as a list of records; `this.table === null`
(before a successful `init()`) is the `none` state.  The adapter serialises
`metadata` with `JSON.stringify` on write and `JSON.parse` on read — an
external JS builtin whose round-trip is lossless for this record shape, so
the model keeps the structured value in the row.  The SQL predicate
`file_path = '...'` (with quote escaping) passed to `table.delete` is
modelled by its path-equality semantics. -/

/-- `VectorRecord` (`src/infrastructure/database/schema.ts`). -/
structure VectorRecord where
  id : Str
  file_path : Str
  chunk_index : Nat
  text : Str
  vector : List ℚ
  metadata : ChunkMetadata
  updated_at : Str
deriving DecidableEq, Repr

/-- The rows of the Lance table. -/
abbrev LanceTable := List VectorRecord

/-- The adapter's table reference: `none` iff `init()` has not succeeded. -/
abbrev StoreState := Option LanceTable

/-- `table.delete("file_path = '(escaped path)'")`. -/
def tableDeletePath (rows : LanceTable) (p : Str) : LanceTable :=
  rows.filter (fun r => r.file_path ≠ p)

/-- `[...new Set(xs)]`: first occurrences, in order. -/
def uniqueFirst : List Str → List Str
  | [] => []
  | a :: l => a :: uniqueFirst (l.filter (· ≠ a))
termination_by l => l.length
decreasing_by
  simp only [List.length_cons]
  exact Nat.lt_succ_of_le (List.length_filter_le _ _)

/-- `LanceAdapter.upsert`: early return when the table is `null` or the
record list is empty; otherwise delete all rows of each distinct
`file_path` occurring in `records`, then add all `records`. -/
def upsert (s : StoreState) (records : List VectorRecord) : StoreState :=
  match s with
  | none => none
  | some rows =>
    if records.isEmpty then some rows
    else
      let filePaths := uniqueFirst (records.map (·.file_path))
      some (filePaths.foldl (fun acc p => tableDeletePath acc p) rows ++ records)

/-- `LanceAdapter.delete`: early return when the table is `null`. -/
def storeDelete (s : StoreState) (p : Str) : StoreState :=
  match s with
  | none => none
  | some rows => some (tableDeletePath rows p)

/-- A search result of the chunk-shaped `LanceAdapter.search`. -/
structure SearchResultC where
  chunk : BaizeChunk
  score : ℚ
  distance : ℚ
deriving DecidableEq, Repr

/-- The external LanceDB query
`table.search(vector).distanceType("cosine").limit(topK).toArray()`:
rows ordered by ascending `_distance` to the query, truncated to `topK`.
The cosine distance itself is computed by the native engine (an external
collaborator), so it enters the model as the parameter `dist`. -/
def lanceRank (dist : List ℚ → List ℚ → ℚ) (q : List ℚ) (topK : Nat)
    (rows : LanceTable) : LanceTable :=
  (List.insertionSort (fun a b => dist q a.vector ≤ dist q b.vector) rows).take topK

/-- `LanceAdapter.search` (the chunk-shaped variant): empty result on an
uninitialised table; otherwise map each ranked row to a result with
`score = 1 - _distance` and chunk position fields hard-coded to `0`, then
filter by `score >= minScore`. -/
def search (s : StoreState) (dist : List ℚ → List ℚ → ℚ) (q : List ℚ)
    (topK : Nat) (minScore : ℚ) : List SearchResultC :=
  match s with
  | none => []
  | some rows =>
    ((lanceRank dist q topK rows).map (fun row =>
      { chunk :=
          { index := row.chunk_index
            text := row.text
            vectorId := row.id
            metadata := row.metadata
            offsetStart := 0
            offsetEnd := 0
            lineStart := 0
            lineEnd := 0 }
        score := 1 - dist q row.vector
        distance := dist q row.vector })).filter (fun r => minScore ≤ r.score)

/-! ## `IndexScheduler` (scheduler source)

The queue is a list of paths; `addToQueue` is the deduplicated enqueue.
The drain loop (`processQueue`) and the per-file pipeline (`indexFile`) are
modelled as pure state transformers over `StoreState`, parameterised by the
external collaborators: the vault (`read`/metadata, `none` for a path that
is not a `TFile`), the embedder (`embedBatch`, which may reject), and the
clock (`now`).  Emitted events model the `EventBus` signals plus the
`logger.error` call inside `indexFile`'s `catch`. -/

/-- The vault-side data `indexFile` reads for one path: file content plus
the metadata-cache values (`title`, `tags`) and `file.stat`. -/
structure VaultFile where
  content : Str
  title : Str
  tags : List Str
  size : Int
  mtime : Int

/-- Observable signals of the drain loop: `INDEX_PROGRESS`, `INDEX_ERROR`,
`INDEX_COMPLETE`, and the per-document `logger.error` in `indexFile`. -/
inductive Ev
  | progress (processed total : Nat)
  | indexError
  | complete
  | logError (path : Str)
deriving DecidableEq, Repr

/-- `IndexScheduler.addToQueue` (the queue mutation only). -/
def addToQueue (queue : List Str) (path : Str) : List Str :=
  if path ∈ queue then queue else queue ++ [path]

/-- `addToQueue` iterated `n` times with the same path. -/
def addToQueueN (path : Str) : Nat → List Str → List Str
  | 0, q => q
  | n + 1, q => addToQueueN path n (addToQueue q path)

/-- The record construction in step 5 of `IndexScheduler.indexFile`. -/
def buildRecords (path : Str) (chunks : List BaizeChunk)
    (vectors : List (List ℚ)) (f : VaultFile) (now : Str) : List VectorRecord :=
  chunks.enum.map (fun ic =>
    { id := ic.2.vectorId
      file_path := path
      chunk_index := ic.1
      text := ic.2.text
      vector := vectors.getD ic.1 []
      metadata :=
        { ic.2.metadata with
            tags := f.tags, file_size := f.size, file_mtime := f.mtime }
      updated_at := now })

/-- `IndexScheduler.indexFile`: read, chunk, delete on zero chunks, else
embed and upsert; any rejection of `embedBatch` is caught by the
function's own `try/catch`, which only logs.  `none` models the chunker
hanging (in which case the JS call never returns). -/
def indexFile (opts : ChunkingOptions) (vault : Str → Option VaultFile)
    (embedBatch : List Str → Except Unit (List (List ℚ))) (now : Str)
    (s : StoreState) (path : Str) : Option (StoreState × List Ev) :=
  match vault path with
  | none => some (s, [])
  | some f =>
    match chunkOpt opts f.content path f.title with
    | none => none
    | some [] => some (storeDelete s path, [])
    | some chunks =>
      match embedBatch (chunks.map (·.text)) with
      | .error _ => some (s, [Ev.logError path])
      | .ok vectors =>
        some (upsert s (buildRecords path chunks vectors f now), [])

/-- The `while (this.queue.length > 0)` drain: returns the final store, the
list of paths processed (in order) and the emitted events. -/
def drainAux (opts : ChunkingOptions) (vault : Str → Option VaultFile)
    (embedBatch : List Str → Except Unit (List (List ℚ))) (now : Str)
    (withProgress : Bool) (total : Nat) :
    List Str → StoreState → Nat → Option (StoreState × List Str × List Ev)
  | [], s, _ => some (s, [], [])
  | p :: rest, s, processed =>
    match indexFile opts vault embedBatch now s p with
    | none => none
    | some (s', evs) =>
      let evs2 := if withProgress then evs ++ [Ev.progress (processed + 1) total] else evs
      match drainAux opts vault embedBatch now withProgress total rest s' (processed + 1) with
      | none => none
      | some (s'', ps, evs') => some (s'', p :: ps, evs2 ++ evs')

/-- `IndexScheduler.processQueue`: early return when the queue is empty or
the model is not ready (both before the `try`, so no `INDEX_COMPLETE` is
emitted); otherwise drain the whole queue and emit `INDEX_COMPLETE` in the
`finally`.  `total` is `totalForProgress || queue.length`. -/
def processQueue (opts : ChunkingOptions) (vault : Str → Option VaultFile)
    (embedBatch : List Str → Except Unit (List (List ℚ))) (now : Str)
    (modelReady : Bool) (withProgress : Bool) (totalForProgress : Nat)
    (queue : List Str) (s : StoreState) :
    Option (StoreState × List Str × List Ev) :=
  if queue.isEmpty then some (s, [], [])
  else if !modelReady then some (s, [], [])
  else
    let total := if withProgress then totalForProgress else queue.length
    (drainAux opts vault embedBatch now withProgress total queue s 0).map
      (fun r => (r.1, r.2.1, r.2.2 ++ [Ev.complete]))

/-! ## Shared helper lemmas for the store theorems -/

/-- A literal string helper for concrete documents and paths. -/
def ofString (s : String) : Str := s.toList

/-- A concrete record used by witnesses. -/
def wRec (i : Nat) : VectorRecord :=
  { id := natDigits i
    file_path := ofString ("a.md")
    chunk_index := i
    text := []
    vector := []
    metadata := ⟨[], [], [], 0, 0⟩
    updated_at := [] }

lemma uniqueFirst_const {l : List Str} {p : Str} (h : ∀ x ∈ l, x = p)
    (hne : l ≠ []) : uniqueFirst l = [p] := by
  cases l with
  | nil => exact absurd rfl hne
  | cons a t =>
    have ha : a = p := h a (List.mem_cons_self a t)
    have ht : t.filter (· ≠ a) = [] := by
      refine List.filter_eq_nil_iff.mpr fun x hx => ?_
      have := h x (List.mem_cons_of_mem a hx)
      simp [this, ha]
    rw [uniqueFirst, ht, uniqueFirst, ha]

lemma tableDeletePath_filter_path (rows : LanceTable) (p : Str) :
    (tableDeletePath rows p).filter (fun r => r.file_path = p) = [] := by
  refine List.filter_eq_nil_iff.mpr fun r hr => ?_
  have := List.of_mem_filter hr
  simp only [decide_eq_true_eq] at this ⊢
  exact fun hp => this hp

lemma upsert_some_isSome (rows : LanceTable) (v : List VectorRecord) :
    ∃ t, upsert (some rows) v = some t := by
  unfold upsert
  by_cases h : v.isEmpty <;> simp [h]

/-- **C10.** `upsert` and `delete` on an uninitialised store (the adapter's
`table` is `null`) return successfully and leave the state unchanged —
records are silently discarded — and `upsert` with an empty record list is
a no-op on an initialised store as well.  All three early returns happen
before the `try` blocks, so no `StorageError` path is reachable. -/
theorem C10_uninitialized_noop :
    (∀ records, upsert none records = none)
    ∧ (∀ p, storeDelete none p = none)
    ∧ (∀ rows, upsert (some rows) [] = some rows) :=
  ⟨fun _ => rfl, fun _ => rfl, fun _ => rfl⟩

/-- **C1.** Upsert replaces, never accumulates: after `upsert v1` then
`upsert v2`, where every record of `v1` and `v2` carries `file_path = p`
and `v2` is the (necessarily non-empty) record list of an indexing pass,
the initialised store holds exactly `v2`'s ids for path `p` — none from
`v1` — because `upsert` groups by `file_path` and deletes all rows of the
path before inserting. -/
theorem C1_upsert_replaces (rows : LanceTable) (v1 v2 : List VectorRecord)
    (p : Str) (h1 : ∀ r ∈ v1, r.file_path = p) (h2 : ∀ r ∈ v2, r.file_path = p)
    (hne : v2 ≠ []) :
    (upsert (upsert (some rows) v1) v2).map
        (fun t => (t.filter (fun r => r.file_path = p)).map (·.id))
      = some (v2.map (·.id)) := by
  obtain ⟨rows1, hrows1⟩ := upsert_some_isSome rows v1
  rw [hrows1]
  have hpaths : uniqueFirst (v2.map (·.file_path)) = [p] := by
    refine uniqueFirst_const (fun x hx => ?_) (by simpa using hne)
    obtain ⟨r, hr, rfl⟩ := List.mem_map.mp hx
    exact h2 r hr
  have hne' : v2.isEmpty = false := by
    cases v2 with
    | nil => exact absurd rfl hne
    | cons a t => rfl
  unfold upsert
  rw [hne', hpaths]
  simp only [Bool.false_eq_true, if_false, List.foldl_cons, List.foldl_nil]
  show some (((tableDeletePath rows1 p ++ v2).filter
      (fun r => r.file_path = p)).map (·.id)) = some (v2.map (·.id))
  rw [List.filter_append, tableDeletePath_filter_path, List.nil_append]
  have hv2 : v2.filter (fun r => r.file_path = p) = v2 :=
    List.filter_eq_self.mpr fun r hr => by simp [h2 r hr]
  rw [hv2]

/-- Witness for C1 at a concrete store and record lists. -/
theorem C1_upsert_replaces_witness :
    (upsert (upsert (some ([] : LanceTable)) [wRec 1]) [wRec 2]).map
        (fun t => (t.filter (fun r => r.file_path = ofString ("a.md"))).map (·.id))
      = some ([wRec 2].map (·.id)) :=
  C1_upsert_replaces [] [wRec 1] [wRec 2] (ofString ("a.md"))
    (by decide) (by decide) (by decide)

/-- **C6.** A document that chunks to zero passages triggers
`store.delete(path)` instead of an upsert: `indexFile` then returns the
deleted store with no events, and the store afterwards holds no record at
all for that path. -/
theorem C6_empty_doc_deletes (opts : ChunkingOptions)
    (vault : Str → Option VaultFile)
    (embedBatch : List Str → Except Unit (List (List ℚ))) (now : Str)
    (rows : LanceTable) (path : Str) (f : VaultFile)
    (hv : vault path = some f)
    (hc : chunkOpt opts f.content path f.title = some []) :
    indexFile opts vault embedBatch now (some rows) path
        = some (storeDelete (some rows) path, [])
    ∧ (storeDelete (some rows) path).map
        (fun t => t.filter (fun r => r.file_path = path)) = some [] := by
  constructor
  · unfold indexFile
    rw [hv]
    simp only [hc]
  · show some ((tableDeletePath rows path).filter
        (fun r => r.file_path = path)) = some []
    rw [tableDeletePath_filter_path]

/-- Witness for C6: the empty document chunks to zero passages and is
deleted from a store that held a record for its path. -/
theorem C6_empty_doc_deletes_witness :
    indexFile DEFAULT_CHUNKING_OPTIONS (fun _ => some ⟨[], [], [], 0, 0⟩)
        (fun _ => .ok []) [] (some [wRec 1]) (ofString ("a.md"))
        = some (storeDelete (some [wRec 1]) (ofString ("a.md")), [])
    ∧ (storeDelete (some [wRec 1]) (ofString ("a.md"))).map
        (fun t => t.filter (fun r => r.file_path = ofString ("a.md"))) = some [] :=
  C6_empty_doc_deletes DEFAULT_CHUNKING_OPTIONS _ _ [] [wRec 1]
    (ofString ("a.md")) ⟨[], [], [], 0, 0⟩ rfl (by decide)

/-! ## Queue and drain-loop lemmas -/

lemma addToQueue_of_mem {q : List Str} {p : Str} (h : p ∈ q) :
    addToQueue q p = q := if_pos h

lemma addToQueueN_of_mem {p : Str} (n : Nat) {q : List Str} (h : p ∈ q) :
    addToQueueN p n q = q := by
  induction n with
  | zero => rfl
  | succ m ih => rw [addToQueueN, addToQueue_of_mem h, ih]

lemma drainAux_processed (opts : ChunkingOptions) (vault : Str → Option VaultFile)
    (embedBatch : List Str → Except Unit (List (List ℚ))) (now : Str)
    (withProgress : Bool) (total : Nat) :
    ∀ (q : List Str) (s : StoreState) (n : Nat) r,
      drainAux opts vault embedBatch now withProgress total q s n = some r →
      r.2.1 = q := by
  intro q
  induction q with
  | nil =>
    intro s n r h
    simp only [drainAux, Option.some_inj] at h
    rw [← h]
  | cons p rest ih =>
    intro s n r h
    simp only [drainAux] at h
    cases hix : indexFile opts vault embedBatch now s p with
    | none => simp [hix] at h
    | some se =>
      obtain ⟨s', evs⟩ := se
      simp only [hix] at h
      cases hd : drainAux opts vault embedBatch now withProgress total rest s' (n + 1) with
      | none => simp [hd] at h
      | some r' =>
        obtain ⟨s'', ps, evs'⟩ := r'
        simp only [hd, Option.some_inj] at h
        have hps := ih s' (n + 1) (s'', ps, evs') hd
        rw [← h]
        simpa using hps

lemma indexFile_events (opts : ChunkingOptions) (vault : Str → Option VaultFile)
    (embedBatch : List Str → Except Unit (List (List ℚ))) (now : Str)
    (s : StoreState) (p : Str) {s' : StoreState} {evs : List Ev}
    (h : indexFile opts vault embedBatch now s p = some (s', evs)) :
    evs = [] ∨ evs = [Ev.logError p] := by
  simp only [indexFile] at h
  cases hv : vault p with
  | none =>
    simp only [hv, Option.some_inj, Prod.mk.injEq] at h
    exact .inl h.2.symm
  | some f =>
    simp only [hv] at h
    cases hc : chunkOpt opts f.content p f.title with
    | none => simp [hc] at h
    | some cs =>
      simp only [hc] at h
      cases cs with
      | nil =>
        simp only [Option.some_inj, Prod.mk.injEq] at h
        exact .inl h.2.symm
      | cons c rest =>
        cases he : embedBatch ((c :: rest).map (·.text)) with
        | error e =>
          simp only [he, Option.some_inj, Prod.mk.injEq] at h
          exact .inr h.2.symm
        | ok vs =>
          simp only [he, Option.some_inj, Prod.mk.injEq] at h
          exact .inl h.2.symm

lemma drainAux_no_indexError (opts : ChunkingOptions)
    (vault : Str → Option VaultFile)
    (embedBatch : List Str → Except Unit (List (List ℚ))) (now : Str)
    (withProgress : Bool) (total : Nat) :
    ∀ (q : List Str) (s : StoreState) (n : Nat) r,
      drainAux opts vault embedBatch now withProgress total q s n = some r →
      Ev.indexError ∉ r.2.2 := by
  intro q
  induction q with
  | nil =>
    intro s n r h
    simp only [drainAux, Option.some_inj] at h
    rw [← h]
    simp
  | cons p rest ih =>
    intro s n r h
    simp only [drainAux] at h
    cases hix : indexFile opts vault embedBatch now s p with
    | none => simp [hix] at h
    | some se =>
      obtain ⟨s', evs⟩ := se
      simp only [hix] at h
      cases hd : drainAux opts vault embedBatch now withProgress total rest s' (n + 1) with
      | none => simp [hd] at h
      | some r' =>
        obtain ⟨s'', ps, evs'⟩ := r'
        simp only [hd, Option.some_inj] at h
        have hrest := ih s' (n + 1) (s'', ps, evs') hd
        have hevs := indexFile_events opts vault embedBatch now s p hix
        rw [← h]
        simp only [List.mem_append]
        rintro (h2 | h2)
        · rcases hevs with he | he <;> subst he <;>
            rcases withProgress <;> simp_all
        · exact hrest h2

/-- **C5.** Enqueueing the same path `n ≥ 1` times before a drain leaves the
path exactly once in the queue; re-enqueueing an already-queued path is a
no-op on the queue contents; and the drain loop therefore performs exactly
one processing pass for that path. -/
theorem C5_dedup_queue (q : List Str) (p : Str) (n : Nat) (hn : 1 ≤ n)
    (hp : p ∉ q) :
    (addToQueueN p n q).count p = 1
    ∧ (∀ q2, p ∈ q2 → addToQueue q2 p = q2)
    ∧ (∀ opts vault embedBatch now withProgress total s n0 r,
        drainAux opts vault embedBatch now withProgress total
          (addToQueueN p n q) s n0 = some r →
        r.2.1.count p = 1) := by
  obtain ⟨m, rfl⟩ : ∃ m, n = m + 1 := ⟨n - 1, (Nat.succ_pred_eq_of_pos hn).symm⟩
  have hq1 : addToQueue q p = q ++ [p] := if_neg hp
  have hq : addToQueueN p (m + 1) q = q ++ [p] := by
    rw [addToQueueN, hq1, addToQueueN_of_mem m (by simp)]
  have hcount : (q ++ [p]).count p = 1 := by
    rw [List.count_append, List.count_eq_zero_of_not_mem hp]
    simp
  refine ⟨by rw [hq]; exact hcount, fun q2 h2 => addToQueue_of_mem h2, ?_⟩
  intro opts vault embedBatch now withProgress total s n0 r hdr
  rw [drainAux_processed opts vault embedBatch now withProgress total _ s n0 r hdr,
    hq]
  exact hcount

/-- Witness for C5 at a concrete queue. -/
theorem C5_dedup_queue_witness :
    (addToQueueN (ofString ("a.md")) 3 []).count (ofString ("a.md")) = 1 :=
  (C5_dedup_queue [] (ofString ("a.md")) 3 (by decide) (by decide)).1

/-! ## Search theorems -/

/-- **C9.** Every result of the chunk-shaped `search` has its position
fields `offsetStart`, `offsetEnd`, `lineStart`, `lineEnd` equal to `0`:
the adapter does not persist character or line positions and hard-codes
zeroes when rebuilding a chunk from a row. -/
theorem C9_search_zero_positions (s : StoreState)
    (dist : List ℚ → List ℚ → ℚ) (q : List ℚ) (topK : Nat) (minScore : ℚ) :
    ∀ r ∈ search s dist q topK minScore,
      r.chunk.offsetStart = 0 ∧ r.chunk.offsetEnd = 0 ∧
        r.chunk.lineStart = 0 ∧ r.chunk.lineEnd = 0 := by
  intro r hr
  cases s with
  | none => simp [search] at hr
  | some rows =>
    simp only [search] at hr
    obtain ⟨row, _, rfl⟩ := List.mem_map.mp (List.mem_of_mem_filter hr)
    exact ⟨rfl, rfl, rfl, rfl⟩

/-- The concrete search result used by the C9 witness. -/
def c9res : SearchResultC :=
  { chunk :=
      { index := 1
        text := []
        vectorId := natDigits 1
        metadata := ⟨[], [], [], 0, 0⟩
        offsetStart := 0
        offsetEnd := 0
        lineStart := 0
        lineEnd := 0 }
    score := 1
    distance := 0 }

/-- Witness for C9 at a one-record store. -/
theorem C9_search_zero_positions_witness :
    c9res ∈ search (some [wRec 1]) (fun _ _ => 0) [] 1 0
    ∧ (c9res.chunk.offsetStart = 0 ∧ c9res.chunk.offsetEnd = 0 ∧
        c9res.chunk.lineStart = 0 ∧ c9res.chunk.lineEnd = 0) :=
  ⟨by simp [search, lanceRank, c9res, wRec],
    C9_search_zero_positions (some [wRec 1]) (fun _ _ => 0) [] 1 0 c9res
      (by simp [search, lanceRank, c9res, wRec])⟩

/-- **C7.** `search(vector, topK, minScore)` returns an empty list (never an
error) on an uninitialised store, returns at most `topK` results, every
result has `score ≥ minScore`, results are ranked by descending score, and
in particular a `minScore = 9/10` search of a store whose rows all score
`≤ 1/2` returns the empty list. -/
theorem C7_search_contract (dist : List ℚ → List ℚ → ℚ) (q : List ℚ)
    (topK : Nat) (minScore : ℚ) (rows : LanceTable) :
    search none dist q topK minScore = []
    ∧ (search (some rows) dist q topK minScore).length ≤ topK
    ∧ (∀ r ∈ search (some rows) dist q topK minScore, minScore ≤ r.score)
    ∧ (search (some rows) dist q topK minScore).Pairwise
        (fun a b => b.score ≤ a.score)
    ∧ ((∀ row ∈ rows, 1 - dist q row.vector ≤ 1 / 2) →
        search (some rows) dist q 5 (9 / 10) = []) := by
  haveI hTot : IsTotal VectorRecord
      (fun a b => dist q a.vector ≤ dist q b.vector) :=
    ⟨fun a b => le_total _ _⟩
  haveI hTrans : IsTrans VectorRecord
      (fun a b => dist q a.vector ≤ dist q b.vector) :=
    ⟨fun _ _ _ hab hbc => le_trans hab hbc⟩
  refine ⟨rfl, ?_, ?_, ?_, ?_⟩
  · simp only [search]
    refine le_trans (List.length_filter_le _ _) ?_
    rw [List.length_map]
    unfold lanceRank
    rw [List.length_take]
    exact min_le_left _ _
  · intro r hr
    simp only [search] at hr
    have := List.of_mem_filter hr
    simpa using this
  · simp only [search]
    refine List.Pairwise.sublist (List.filter_sublist _) ?_
    rw [List.pairwise_map]
    have hsorted : List.Pairwise (fun a b => dist q a.vector ≤ dist q b.vector)
        ((List.insertionSort (fun a b => dist q a.vector ≤ dist q b.vector)
          rows).take topK) :=
      List.Pairwise.sublist (List.take_sublist _ _)
        (List.sorted_insertionSort _ rows)
    exact hsorted.imp (fun hab => sub_le_sub_left hab 1)
  · intro hlow
    simp only [search]
    refine List.filter_eq_nil_iff.mpr fun r hr => ?_
    obtain ⟨row, hrow, rfl⟩ := List.mem_map.mp hr
    have hmem : row ∈ rows := by
      unfold lanceRank at hrow
      exact (List.perm_insertionSort _ rows).mem_iff.mp
        (List.mem_of_mem_take hrow)
    have hle := hlow row hmem
    simp only [decide_eq_true_eq]
    intro hge
    have hge2 : (9 : ℚ) / 10 ≤ 1 - dist q row.vector := hge
    linarith

/-- Witness for C7: the low-score scenario at a concrete store. -/
theorem C7_search_contract_witness :
    search (some [wRec 1]) (fun _ _ => 1) [] 5 (9 / 10) = [] :=
  (C7_search_contract (fun _ _ => 1) [] 5 (9 / 10) [wRec 1]).2.2.2.2
    (fun row _ => by norm_num)

/-! ## Code-block boundary lemmas (for C2) -/

/-- Non-overlapping left-to-right count of ` ``` ` delimiters in a text; an
odd count means the text contains a partial (unbalanced) code fence. -/
def countTicksAux (l : Str) (k : Nat) : Nat → Nat
  | 0 => 0
  | fuel + 1 =>
    match findTicksFrom l k (l.length + 1) with
    | none => 0
    | some o => 1 + countTicksAux l (o + 3) fuel

/-- Number of ` ``` ` delimiters in a text. -/
def fenceCount (t : Str) : Nat := countTicksAux t 0 (t.length + 1)

/-- The concrete document of the C2 counterexample: a fenced code block that
contains a heading-shaped line. -/
def C2doc : Str := ofString ("intro\n```\n# H\ncode\n```\ntail")

lemma findTicksFrom_ge {l : Str} :
    ∀ {fuel k o}, findTicksFrom l k fuel = some o → k ≤ o := by
  intro fuel
  induction fuel with
  | zero => intro k o h; simp [findTicksFrom] at h
  | succ f ih =>
    intro k o h
    simp only [findTicksFrom] at h
    split at h
    · exact absurd h (by simp)
    · split at h
      · cases h; exact le_refl _
      · exact le_trans (Nat.le_succ k) (ih h)

lemma findCodeBlocksAux_inv (l : Str) :
    ∀ fuel p, (∀ b ∈ findCodeBlocksAux l p fuel, p ≤ b.1 ∧ b.1 + 6 ≤ b.2)
      ∧ (findCodeBlocksAux l p fuel).Pairwise (fun a b => a.2 ≤ b.1) := by
  intro fuel
  induction fuel with
  | zero => intro p; constructor <;> simp [findCodeBlocksAux]
  | succ f ih =>
    intro p
    simp only [findCodeBlocksAux]
    cases ho : findTicksFrom l p (l.length + 1) with
    | none => constructor <;> simp
    | some o =>
      dsimp only
      cases hc : findTicksFrom l (o + 3) (l.length + 1) with
      | none => constructor <;> simp
      | some c =>
        dsimp only
        have h1 : p ≤ o := findTicksFrom_ge ho
        have h2 : o + 3 ≤ c := findTicksFrom_ge hc
        obtain ⟨ihmem, ihpw⟩ := ih (c + 3)
        constructor
        · intro b hb
          rcases List.mem_cons.mp hb with rfl | hb
          · exact ⟨h1, by omega⟩
          · obtain ⟨hb1, hb2⟩ := ihmem b hb
            exact ⟨by omega, hb2⟩
        · refine List.pairwise_cons.mpr ⟨fun b hb => ?_, ihpw⟩
          exact (ihmem b hb).1

lemma adjustEnd_shape (opts : ChunkingOptions) (off cursor e : Int) :
    ∀ blocks : List (Nat × Nat),
      adjustEnd opts blocks off cursor e = e ∨
        ∃ b ∈ blocks, adjustEnd opts blocks off cursor e = (b.1 : Int) - off ∨
          adjustEnd opts blocks off cursor e = (b.2 : Int) - off := by
  intro blocks
  induction blocks with
  | nil => exact .inl rfl
  | cons hd rest ih =>
    obtain ⟨s, t⟩ := hd
    simp only [adjustEnd]
    split
    · split
      · exact .inr ⟨(s, t), List.mem_cons_self _ _, .inr rfl⟩
      · exact .inr ⟨(s, t), List.mem_cons_self _ _, .inl rfl⟩
    · rcases ih with h | ⟨b, hb, hbe⟩
      · exact .inl h
      · exact .inr ⟨b, List.mem_cons_of_mem _ hb, hbe⟩

lemma adjustEnd_not_inside (opts : ChunkingOptions) (off cursor e : Int) :
    ∀ blocks : List (Nat × Nat),
      (∀ b ∈ blocks, b.1 < b.2) →
      blocks.Pairwise (fun a b => a.2 ≤ b.1) →
      ∀ b ∈ blocks,
        ¬((b.1 : Int) < off + adjustEnd opts blocks off cursor e ∧
          off + adjustEnd opts blocks off cursor e < (b.2 : Int)) := by
  intro blocks
  induction blocks with
  | nil => intro _ _ b hb; simp at hb
  | cons hd rest ih =>
    intro hlt hpw b hb
    obtain ⟨s, t⟩ := hd
    obtain ⟨hhd, hpw'⟩ := List.pairwise_cons.mp hpw
    simp only [adjustEnd]
    split
    case isTrue hcont =>
      split
      case isTrue hsmall =>
        rcases List.mem_cons.mp hb with rfl | hbr
        · intro hc
          have h2 := hc.2
          omega
        · have hts : t ≤ b.1 := hhd b hbr
          intro hc
          have h1 := hc.1
          omega
      case isFalse hbig =>
        rcases List.mem_cons.mp hb with rfl | hbr
        · intro hc
          have h1 := hc.1
          omega
        · have hts : t ≤ b.1 := hhd b hbr
          have hst : s < t := hlt (s, t) (List.mem_cons_self _ _)
          intro hc
          have h1 := hc.1
          omega
    case isFalse hncont =>
      rcases List.mem_cons.mp hb with rfl | hbr
      · rcases adjustEnd_shape opts off cursor e rest with hsh | ⟨b', hb', hbe⟩
        · rw [hsh]; exact hncont
        · have hgt : t ≤ b'.1 := hhd b' hb'
          have hb'lt : b'.1 < b'.2 := hlt b' (List.mem_cons_of_mem _ hb')
          rcases hbe with h | h <;> rw [h] <;> intro hc
          · have h2 := hc.2
            omega
          · have h2 := hc.2
            omega
      · exact ih (fun x hx => hlt x (List.mem_cons_of_mem _ hx)) hpw' b hbr

set_option maxRecDepth 10000

/-- **C2, counterexample.**  On the concrete document
`"intro\n```\n# H\ncode\n```\ntail"` — whose only fenced block is far below
`1.5 × chunkSize` — `chunk` emits a passage containing a partial
(unbalanced) code fence: `splitByHeadings` is unaware of the recorded
code-block ranges and cuts at the heading-shaped line inside the fence. -/
theorem C2_counterexample :
    ((chunkOpt DEFAULT_CHUNKING_OPTIONS C2doc (ofString ("p.md"))
        (ofString ("T"))).getD []).any (fun c => fenceCount c.text % 2 = 1)
    ∧ (findCodeBlocks (stripFrontmatter DEFAULT_CHUNKING_OPTIONS C2doc).content).all
        (fun b => 2 * (b.2 - b.1) ≤ 3 * DEFAULT_CHUNKING_OPTIONS.chunkSize) := by
  exact ⟨by decide, by decide⟩

/-- **C2, amended.**  What the refinement loop itself guarantees: the
window end chosen by the code-block adjustment (`adjustEnd`) never lies
strictly inside any recorded code-block range — in the oversized case the
cut is placed at the block's start boundary.  (Passages with partial
fences still arise — the heading split and the overlapped start of the
next window are not protected; see the counterexample.) -/
theorem C2_amended (opts : ChunkingOptions) (content : Str) (off cursor e : Int) :
    ∀ b ∈ findCodeBlocks content,
      ¬((b.1 : Int) < off + adjustEnd opts (findCodeBlocks content) off cursor e ∧
        off + adjustEnd opts (findCodeBlocks content) off cursor e < (b.2 : Int)) := by
  obtain ⟨hmem, hpw⟩ := findCodeBlocksAux_inv content (content.length + 1) 0
  exact adjustEnd_not_inside opts off cursor e (findCodeBlocks content)
    (fun b hb => by have := (hmem b hb).2; omega) hpw

/-- Witness for the amended C2 at the counterexample document and its
concrete block `(6, 22)`. -/
theorem C2_amended_witness :
    ¬((((6, 22) : Nat × Nat).1 : Int) <
        0 + adjustEnd DEFAULT_CHUNKING_OPTIONS (findCodeBlocks C2doc) 0 0 10 ∧
      0 + adjustEnd DEFAULT_CHUNKING_OPTIONS (findCodeBlocks C2doc) 0 0 10 <
        (((6, 22) : Nat × Nat).2 : Int)) :=
  C2_amended DEFAULT_CHUNKING_OPTIONS C2doc 0 0 10 (6, 22) (by decide)

/-! ## Heading-path theorems (C4) -/

/-- **C4, counterexample.**  For the heading sequence `# A`, `### C`, `## B`
the section after `## B` does **not** carry the heading path
`[# A, ## B]`: the source stores every slot with a single-`#` marker
(`` `# ${title}` ``), so the actual path is `[# A, # B]`. -/
theorem C4_counterexample :
    ((splitByHeadings (ofString ("# A\nuno\n### C\ndue\n## B\ntre")) 0 0).map
        (fun s => s.headings)).getLast? ≠
      some [some (ofString ("# A")), some (ofString ("## B"))] := by decide

/-- **C4, amended.**  A heading of level `L` replaces the heading-path slot
at depth `L−1` and truncates all deeper slots, but the stored marker is
always a single `#` regardless of the heading's level: the sequence
`# A`, `### C`, `## B` yields paths `[# A]`, `[# A, _, # C]` (with a hole
at depth 1) and `[# A, # B]`; the sequence `# A`, `## B`, `### C` ends
with `[# A, # B, # C]`.  In general `updateHeadings` produces a path of
length exactly `L` whose last slot holds `"# " ++ title` and whose first
`min (L−1) |cur|` slots are preserved from `cur`. -/
theorem C4_amended :
    ((splitByHeadings (ofString ("# A\nuno\n### C\ndue\n## B\ntre")) 0 0).map
        (fun s => s.headings)) =
      [[some (ofString ("# A"))],
       [some (ofString ("# A")), none, some (ofString ("# C"))],
       [some (ofString ("# A")), some (ofString ("# B"))]]
    ∧ ((splitByHeadings (ofString ("# A\nuno\n## B\ndue\n### C\ntre")) 0 0).map
        (fun s => s.headings)) =
      [[some (ofString ("# A"))],
       [some (ofString ("# A")), some (ofString ("# B"))],
       [some (ofString ("# A")), some (ofString ("# B")), some (ofString ("# C"))]]
    ∧ (∀ (cur : List (Option Str)) (level : Nat) (title : Str), 1 ≤ level →
        (updateHeadings cur level title).length = level
        ∧ (updateHeadings cur level title).getLast?
            = some (some ('#' :: ' ' :: title))
        ∧ ∀ i < min (level - 1) cur.length,
            (updateHeadings cur level title)[i]? = cur[i]?) := by
  refine ⟨by decide, by decide, ?_⟩
  intro cur level title hlev
  unfold updateHeadings
  have htlen : (cur.take (level - 1)).length = min (level - 1) cur.length :=
    List.length_take _ _
  refine ⟨?_, ?_, ?_⟩
  · simp only [List.length_append, List.length_replicate, List.length_cons,
      List.length_nil, htlen]
    omega
  · exact List.getLast?_concat _
  · intro i hi
    dsimp only
    rw [List.getElem?_append_left (by simp [htlen]; omega),
      List.getElem?_append_left (by rw [htlen]; omega)]
    exact List.getElem?_take_of_lt (by omega)

/-- Witness for the amended C4 at a concrete path update. -/
theorem C4_amended_witness :
    (updateHeadings [some (ofString ("# A"))] 2 (ofString ("B"))).length = 2 :=
  (C4_amended.2.2 [some (ofString ("# A"))] 2 (ofString ("B")) (by decide)).1

/-! ## Drain-loop failure-policy theorems (C8) -/

/-- The vault of the C8 counterexample: every path is a one-character file. -/
def c8vault : Str → Option VaultFile := fun _ => some ⟨ofString ("x"), [], [], 0, 0⟩

/-- **C8, counterexample.**  A concrete drain in which every document's
embedding step rejects: both queued paths are still processed and
`INDEX_COMPLETE` is emitted, but the failures are reported only through
`logger.error` inside `indexFile`'s own `catch` — the scheduler's
`INDEX_ERROR` signal is never emitted, contradicting the claim that the
exception is caught *at the loop level* and reported via an error signal
(an exception actually reaching the loop-level `catch` would abort the
remaining queue). -/
theorem C8_counterexample :
    processQueue DEFAULT_CHUNKING_OPTIONS c8vault (fun _ => .error ()) [] true false 0
        [ofString ("a"), ofString ("b")] (some [])
      = some (some [], [ofString ("a"), ofString ("b")],
          [Ev.logError (ofString ("a")), Ev.logError (ofString ("b")), Ev.complete])
    ∧ Ev.indexError ∉
        [Ev.logError (ofString ("a")), Ev.logError (ofString ("b")), Ev.complete] := by
  exact ⟨by decide, by decide⟩

/-- **C8, amended.**  A failure while processing one document is caught
inside the per-document step (`indexFile`'s `catch`, reported via the
error log) and does not abort the remaining queued paths: whatever the
embedder does, a completed drain has processed exactly the whole queue,
ends with the `INDEX_COMPLETE` signal, and never emits the loop-level
`INDEX_ERROR` signal. -/
theorem C8_amended (opts : ChunkingOptions) (vault : Str → Option VaultFile)
    (embedBatch : List Str → Except Unit (List (List ℚ))) (now : Str)
    (withProgress : Bool) (totalForProgress : Nat) (q : List Str)
    (s : StoreState) (r : StoreState × List Str × List Ev) (hq : q ≠ [])
    (h : processQueue opts vault embedBatch now true withProgress totalForProgress
        q s = some r) :
    r.2.1 = q ∧ r.2.2.getLast? = some Ev.complete ∧ Ev.indexError ∉ r.2.2 := by
  unfold processQueue at h
  have hqe : q.isEmpty = false := by
    cases q with
    | nil => exact absurd rfl hq
    | cons a t => rfl
  rw [hqe] at h
  rw [if_neg (by simp), if_neg (by simp)] at h
  dsimp only at h
  cases hd : drainAux opts vault embedBatch now withProgress
      (if withProgress then totalForProgress else q.length) q s 0 with
  | none => rw [hd] at h; simp at h
  | some rd =>
    rw [hd] at h
    obtain ⟨s', ps, evs⟩ := rd
    have h2 : ((s', ps, evs ++ [Ev.complete]) : StoreState × List Str × List Ev)
        = r := Option.some_injective _ h
    subst h2
    refine ⟨?_, ?_, ?_⟩
    · exact drainAux_processed _ _ _ _ _ _ q s 0 (s', ps, evs) hd
    · exact List.getLast?_concat _
    · have hni := drainAux_no_indexError _ _ _ _ _ _ q s 0 (s', ps, evs) hd
      simp only [List.mem_append, List.mem_singleton]
      rintro (hin | hin)
      · exact hni hin
      · exact absurd hin (by simp)

/-- Witness for the amended C8 at the counterexample drain. -/
theorem C8_amended_witness :
    ((some ([] : LanceTable), [ofString ("a"), ofString ("b")],
        [Ev.logError (ofString ("a")), Ev.logError (ofString ("b")),
          Ev.complete]) : StoreState × List Str × List Ev).2.1
        = [ofString ("a"), ofString ("b")]
    ∧ ((some ([] : LanceTable), [ofString ("a"), ofString ("b")],
        [Ev.logError (ofString ("a")), Ev.logError (ofString ("b")),
          Ev.complete]) : StoreState × List Str × List Ev).2.2.getLast?
        = some Ev.complete
    ∧ Ev.indexError ∉
        ((some ([] : LanceTable), [ofString ("a"), ofString ("b")],
          [Ev.logError (ofString ("a")), Ev.logError (ofString ("b")),
            Ev.complete]) : StoreState × List Str × List Ev).2.2 :=
  C8_amended DEFAULT_CHUNKING_OPTIONS c8vault (fun _ => .error ()) [] false 0
    [ofString ("a"), ofString ("b")] (some []) _ (by decide) (by decide)

/-! ## Offset round-trip development (C3)

The offsets recorded by `createChunk` are proved to ride along the whole
pipeline: every emitted chunk's text is the contiguous slice of the original
document between its `offsetStart` and `offsetEnd`.  The refinement cursor
can in principle go negative (a code block crossing a section boundary can
retreat the cut before the section start); the invariant `PInv` shows that
in that situation the loop is pinned — the window collapses (`chooseEnd`
returns the cursor itself) and only empty chunk texts can be produced, for
which the round-trip is trivial. -/

/-- A chunk whose text is the slice of `orig` between its offsets. -/
def ChunkGood (orig : Str) (c : BaizeChunk) : Prop :=
  c.offsetEnd = c.offsetStart + c.text.length ∧
    jsSlice orig c.offsetStart c.offsetEnd = c.text

/-- A section whose text is the slice of `orig` at its `offsetStart`. -/
def SecGood (orig : Str) (s : MdSection) : Prop :=
  s.text = (orig.drop s.offsetStart).take s.text.length

lemma jsNorm_le (len : Nat) (i : Int) : jsNorm len i ≤ len := by
  unfold jsNorm
  split <;> omega

lemma jsNorm_sub_le (len : Nat) {a b : Int} (h : a ≤ b) :
    ((jsNorm len b : Nat) : Int) - (jsNorm len a : Nat) ≤ b - a := by
  unfold jsNorm
  split <;> split <;> omega

lemma jsNorm_of_nonneg {len : Nat} {i : Int} (h : 0 ≤ i) :
    jsNorm len i = min i.toNat len := by
  unfold jsNorm
  rw [if_neg (by omega)]

lemma sliceN_eq_drop_take (l : Str) (a b : Nat) :
    sliceN l a b = (l.drop a).take (b - a) := List.drop_take b a l

lemma jsSlice_eq_drop_take (l : Str) (a b : Int) :
    jsSlice l a b =
      (l.drop (jsNorm l.length a)).take (jsNorm l.length b - jsNorm l.length a) :=
  sliceN_eq_drop_take l _ _

lemma jsSlice_self (l : Str) (a : Int) : jsSlice l a a = [] := by
  rw [jsSlice_eq_drop_take]
  simp

lemma jsSlice_length_le (l : Str) {a b : Int} (h : a ≤ b) :
    ((jsSlice l a b).length : Int) ≤ b - a := by
  rw [jsSlice_eq_drop_take]
  have h1 := jsNorm_sub_le l.length h
  have h2 := jsNorm_le l.length a
  have h3 := jsNorm_le l.length b
  simp only [List.length_take, List.length_drop]
  omega

lemma findIdx?_bounds {α} (p : α → Bool) :
    ∀ (l : List α) (s i : Nat), List.findIdx? p l s = some i →
      s ≤ i ∧ i < s + l.length := by
  intro l
  induction l with
  | nil => intro s i h; simp [List.findIdx?] at h
  | cons a t ih =>
    intro s i h
    rw [List.findIdx?_cons] at h
    split at h
    · cases h
      exact ⟨le_refl _, by simp⟩
    · have := ih (s + 1) i h
      exact ⟨by omega, by simp only [List.length_cons]; omega⟩

lemma lastIndexOfC_bounds (l : Str) (c : Char) :
    -1 ≤ lastIndexOfC l c ∧ lastIndexOfC l c < l.length := by
  unfold lastIndexOfC
  cases h : l.reverse.findIdx? (· = c) with
  | none =>
    simp only [h]
    constructor
    · exact le_refl _
    · have : (0 : Int) ≤ l.length := by positivity
      omega
  | some i =>
    simp only [h]
    have := findIdx?_bounds _ l.reverse 0 i h
    rw [List.length_reverse] at this
    constructor <;> omega

lemma take_own_length {α} {x t : List α} {m : Nat} (h : t = x.take m) :
    t = x.take t.length := by
  subst h
  rcases le_or_lt m x.length with hm | hm
  · rw [List.length_take, min_eq_left hm]
  · rw [List.take_of_length_le (le_of_lt hm)]
    exact (List.take_length x).symm

/-- The central slice fact: a text of the form `(orig.drop A).take |t|`
round-trips through `jsSlice orig A (A + |t|)`. -/
lemma jsSlice_roundtrip (orig : Str) (A : Nat) (t : Str)
    (ht : t = (orig.drop A).take t.length) :
    jsSlice orig (A : Int) ((A : Int) + t.length) = t := by
  have hlt : t.length ≤ orig.length - A := by
    conv_lhs => rw [ht]
    simp only [List.length_take, List.length_drop]
    omega
  rw [jsSlice_eq_drop_take]
  have hA : jsNorm orig.length (A : Int) = min A orig.length := by
    rw [jsNorm_of_nonneg (by positivity), Int.toNat_natCast]
  have hB : jsNorm orig.length ((A : Int) + t.length) = min (A + t.length) orig.length := by
    rw [jsNorm_of_nonneg (by positivity)]
    omega
  rw [hA, hB]
  rcases le_or_lt orig.length A with hlen | hlen
  · -- the slice starts at or past the end: `t` must be empty
    have ht0 : t.length = 0 := by
      have : orig.length - A = 0 := by omega
      rw [this] at hlt
      omega
    rw [List.length_eq_zero] at ht0
    rw [ht0]
    simp only [List.length_nil]
    rw [min_eq_right hlen, min_eq_right (by omega)]
    simp
  · rw [min_eq_left (le_of_lt hlen), min_eq_left (by omega)]
    rw [show A + t.length - A = t.length by omega]
    exact ht.symm

lemma snapEnd_bounds (text : Str) (cursor e0 : Int) (h : cursor ≤ e0) :
    cursor ≤ snapEnd text cursor e0 ∧ snapEnd text cursor e0 ≤ e0 ∧
      (cursor < e0 → cursor < snapEnd text cursor e0) := by
  simp only [snapEnd]
  set lookStart := max cursor (e0 - 100) with hls
  set lookback := jsSlice text lookStart e0 with hlb
  have hls1 : cursor ≤ lookStart := le_max_left _ _
  have hls2 : lookStart ≤ e0 := by omega
  have hlen : (lookback.length : Int) ≤ e0 - lookStart := jsSlice_length_le text hls2
  have hn := lastIndexOfC_bounds lookback '\n'
  have h1 := lastIndexOfC_bounds lookback '。'
  have h2 := lastIndexOfC_bounds lookback '.'
  have h3 := lastIndexOfC_bounds lookback '?'
  have h4 := lastIndexOfC_bounds lookback '!'
  split
  case isTrue hnl => refine ⟨by omega, by omega, fun _ => by omega⟩
  case isFalse =>
    split
    case isTrue hst => refine ⟨by omega, by omega, fun _ => by omega⟩
    case isFalse => refine ⟨h, le_refl _, fun hlt => hlt⟩

lemma pairwise_mem_cases {α} {R : α → α → Prop} :
    ∀ {l : List α}, l.Pairwise R → ∀ {x y : α}, x ∈ l → y ∈ l →
      x = y ∨ R x y ∨ R y x := by
  intro l hl
  induction hl with
  | nil => intro x y hx _; simp at hx
  | cons hhead _ ih =>
    intro x y hx hy
    rcases List.mem_cons.mp hx with rfl | hx2 <;>
      rcases List.mem_cons.mp hy with rfl | hy2
    · exact .inl rfl
    · exact .inr (.inl (hhead y hy2))
    · exact .inr (.inr (hhead x hx2))
    · exact ih hx2 hy2

lemma adjustEnd_eq_self (opts : ChunkingOptions) (off cursor e : Int) :
    ∀ blocks : List (Nat × Nat),
      (∀ b ∈ blocks, ¬((b.1 : Int) < off + e ∧ off + e < (b.2 : Int))) →
      adjustEnd opts blocks off cursor e = e := by
  intro blocks
  induction blocks with
  | nil => intro _; rfl
  | cons hd rest ih =>
    intro hno
    obtain ⟨s, t⟩ := hd
    simp only [adjustEnd]
    rw [if_neg (hno (s, t) (List.mem_cons_self _ _))]
    exact ih fun b hb => hno b (List.mem_cons_of_mem _ hb)

lemma adjustEnd_eval_at (opts : ChunkingOptions) (off cursor e : Int) :
    ∀ blocks : List (Nat × Nat), blocks.Pairwise (fun a b => a.2 ≤ b.1) →
      ∀ b ∈ blocks, ((b.1 : Int) < off + e ∧ off + e < (b.2 : Int)) →
      adjustEnd opts blocks off cursor e =
        if ((b.2 : ℚ) - ((off + cursor : Int) : ℚ)) ≤ (opts.chunkSize : ℚ) * (3 / 2)
        then (b.2 : Int) - off else (b.1 : Int) - off := by
  intro blocks
  induction blocks with
  | nil => intro _ b hb; simp at hb
  | cons hd rest ih =>
    intro hpw b hb hcont
    obtain ⟨hhead, hpw2⟩ := List.pairwise_cons.mp hpw
    obtain ⟨s, t⟩ := hd
    rcases List.mem_cons.mp hb with rfl | hbr
    · simp only [adjustEnd]
      rw [if_pos hcont]
    · have h2 : t ≤ b.1 := hhead b hbr
      simp only [adjustEnd]
      rw [if_neg (by
        rintro ⟨h3, h4⟩
        have := hcont.1
        omega)]
      exact ih hpw2 b hbr hcont

lemma adjustEnd_spec (opts : ChunkingOptions) (off cursor e : Int) :
    ∀ blocks : List (Nat × Nat),
      adjustEnd opts blocks off cursor e = e ∨
        ∃ b ∈ blocks, ((b.1 : Int) < off + e ∧ off + e < (b.2 : Int)) ∧
          ((((b.2 : ℚ) - ((off + cursor : Int) : ℚ)) ≤ (opts.chunkSize : ℚ) * (3 / 2) ∧
              adjustEnd opts blocks off cursor e = (b.2 : Int) - off) ∨
            ((opts.chunkSize : ℚ) * (3 / 2) < (b.2 : ℚ) - ((off + cursor : Int) : ℚ) ∧
              adjustEnd opts blocks off cursor e = (b.1 : Int) - off)) := by
  intro blocks
  induction blocks with
  | nil => exact .inl rfl
  | cons hd rest ih =>
    obtain ⟨s, t⟩ := hd
    simp only [adjustEnd]
    split
    case isTrue hcont =>
      split
      case isTrue hsm =>
        exact .inr ⟨(s, t), List.mem_cons_self _ _, hcont, .inl ⟨hsm, rfl⟩⟩
      case isFalse hbg =>
        exact .inr ⟨(s, t), List.mem_cons_self _ _, hcont, .inr ⟨lt_of_not_le hbg, rfl⟩⟩
    case isFalse hnc =>
      rcases ih with h | ⟨b, hb, hc, hcase⟩
      · exact .inl h
      · exact .inr ⟨b, List.mem_cons_of_mem _ hb, hc, hcase⟩

/-- At a non-negative cursor, the chosen window end is either non-negative
itself or is the start of an oversized recorded block. -/
lemma chooseEnd_step (opts : ChunkingOptions) (blocks : List (Nat × Nat))
    (s : MdSection) (cursor : Int) (h0 : 0 ≤ cursor) :
    0 ≤ chooseEnd opts blocks s cursor ∨
      ∃ b ∈ blocks, (b.1 : Int) = (s.offsetStart : Int) + chooseEnd opts blocks s cursor ∧
        (opts.chunkSize : ℚ) * (3 / 2) < (b.2 : ℚ) - (b.1 : ℚ) := by
  have hcs : (0 : Int) ≤ (opts.chunkSize : Int) := by positivity
  have hsnap := snapEnd_bounds s.text cursor (cursor + opts.chunkSize) (by omega)
  simp only [chooseEnd]
  split
  case isFalse => left; omega
  case isTrue hlt =>
    rcases adjustEnd_spec opts (s.offsetStart : Int) cursor
        (snapEnd s.text cursor (cursor + opts.chunkSize)) blocks with hfix
      | ⟨b, hbmem, hcontain, hcase⟩
    · left; rw [hfix]; omega
    · rcases hcase with ⟨_, heq⟩ | ⟨hbig, heq⟩
      · left
        rw [heq]
        have := hcontain.2
        omega
      · rcases le_or_lt 0 ((b.1 : Int) - (s.offsetStart : Int)) with hpos | hneg2
        · left; rw [heq]; omega
        · right
          refine ⟨b, hbmem, by rw [heq]; ring, ?_⟩
          have hb1 : (b.1 : Int) ≤ (s.offsetStart : Int) + cursor := by omega
          have hb1q : ((b.1 : Nat) : ℚ) ≤ (((s.offsetStart : Int) + cursor : Int) : ℚ) := by
            exact_mod_cast hb1
          linarith

/-- At a negative cursor pinned to the start of an oversized block, the
chosen window end is the cursor itself (the loop makes no progress and
emits only empty texts). -/
lemma chooseEnd_neg (opts : ChunkingOptions) (blocks : List (Nat × Nat))
    (s : MdSection) (cursor : Int) (hneg : cursor < 0)
    (b : Nat × Nat) (hb : b ∈ blocks)
    (hb1 : (b.1 : Int) = (s.offsetStart : Int) + cursor)
    (hbig : (opts.chunkSize : ℚ) * (3 / 2) < (b.2 : ℚ) - (b.1 : ℚ))
    (hpw : blocks.Pairwise (fun a b => a.2 ≤ b.1))
    (hblk : ∀ x ∈ blocks, x.1 < x.2)
    (hlen : (opts.chunkSize : Int) < (s.text.length : Int)) :
    chooseEnd opts blocks s cursor = cursor := by
  have hcs : (0 : Int) ≤ (opts.chunkSize : Int) := by positivity
  have hcsb : (opts.chunkSize : Int) < (b.2 : Int) - (b.1 : Int) := by
    have hq : (opts.chunkSize : ℚ) < (b.2 : ℚ) - (b.1 : ℚ) := by
      have hnn : (0 : ℚ) ≤ (opts.chunkSize : ℚ) := by positivity
      linarith
    exact_mod_cast hq
  have hsnap := snapEnd_bounds s.text cursor (cursor + opts.chunkSize) (by omega)
  simp only [chooseEnd]
  rw [if_pos (by omega)]
  rcases eq_or_lt_of_le hsnap.1 with heq | hlt2
  · rw [← heq]
    apply adjustEnd_eq_self
    intro x hx hcx
    rcases pairwise_mem_cases hpw hx hb with rfl | hR | hR
    · omega
    · omega
    · have := hblk b hb
      omega
  · have hcont : (b.1 : Int) <
        (s.offsetStart : Int) + snapEnd s.text cursor (cursor + opts.chunkSize) ∧
        (s.offsetStart : Int) + snapEnd s.text cursor (cursor + opts.chunkSize)
          < (b.2 : Int) := by
      constructor
      · omega
      · have := hsnap.2.1
        omega
    rw [adjustEnd_eval_at opts _ cursor _ blocks hpw b hb hcont]
    rw [if_neg (by
      intro hle
      have hb1q : ((b.1 : Nat) : ℚ) = (((s.offsetStart : Int) + cursor : Int) : ℚ) := by
        exact_mod_cast hb1
      linarith)]
    omega

lemma createChunk_good (orig : Str) (s : MdSection) (title : Str)
    (hsec : SecGood orig s) (cursor : Int) (h0 : 0 ≤ cursor)
    (hcn : cursor.toNat ≤ s.text.length) (chunkText : Str)
    (hct : chunkText = (s.text.drop cursor.toNat).take chunkText.length) :
    ChunkGood orig (createChunk s chunkText cursor title) := by
  constructor
  · simp only [createChunk]
  · have hform : chunkText = (orig.drop (s.offsetStart + cursor.toNat)).take chunkText.length := by
      refine take_own_length
        (m := min chunkText.length (s.text.length - cursor.toNat)) ?_
      calc chunkText
          = (s.text.drop cursor.toNat).take chunkText.length := hct
        _ = (((orig.drop s.offsetStart).take s.text.length).drop
              cursor.toNat).take chunkText.length := by rw [← hsec]
        _ = (((orig.drop s.offsetStart).drop cursor.toNat).take
              (s.text.length - cursor.toNat)).take chunkText.length := by
              rw [List.drop_take]
        _ = ((orig.drop (s.offsetStart + cursor.toNat)).take
              (s.text.length - cursor.toNat)).take chunkText.length := by
              rw [List.drop_drop]
        _ = (orig.drop (s.offsetStart + cursor.toNat)).take
              (min chunkText.length (s.text.length - cursor.toNat)) :=
              List.take_take _ _ _
    have hcast : ((s.offsetStart : Int)) + cursor
        = (((s.offsetStart + cursor.toNat : Nat)) : Int) := by omega
    show jsSlice orig ((s.offsetStart : Int) + cursor)
        ((s.offsetStart : Int) + cursor + chunkText.length) = chunkText
    rw [hcast]
    exact jsSlice_roundtrip orig _ chunkText hform

/-- Loop invariant of `refineLoop`: the cursor is non-negative, or it is
pinned to the start of an oversized recorded block (in which case the loop
emits only empty texts and never moves). -/
def PInv (opts : ChunkingOptions) (blocks : List (Nat × Nat)) (s : MdSection)
    (cursor : Int) : Prop :=
  0 ≤ cursor ∨ ∃ b ∈ blocks, (b.1 : Int) = (s.offsetStart : Int) + cursor ∧
    (opts.chunkSize : ℚ) * (3 / 2) < (b.2 : ℚ) - (b.1 : ℚ)

lemma refineLoop_good (opts : ChunkingOptions) (orig : Str) (s : MdSection)
    (blocks : List (Nat × Nat)) (title : Str) (overlap : Int)
    (hov : 0 ≤ overlap) (hcs : (opts.chunkSize : Int) < (s.text.length : Int))
    (hsec : SecGood orig s) (hblk : ∀ b ∈ blocks, b.1 < b.2)
    (hpw : blocks.Pairwise (fun a b => a.2 ≤ b.1)) :
    ∀ (fuel : Nat) (cursor : Int) (acc out : List BaizeChunk),
      PInv opts blocks s cursor → (∀ c ∈ acc, ChunkGood orig c) →
      refineLoop opts s blocks title overlap fuel cursor acc = some out →
      ∀ c ∈ out, ChunkGood orig c := by
  intro fuel
  induction fuel with
  | zero => intro cursor acc out _ _ h; simp [refineLoop] at h
  | succ f ih =>
    intro cursor acc out hPI hacc h
    simp only [refineLoop] at h
    by_cases hcur : cursor < (s.text.length : Int)
    case neg =>
      rw [if_neg hcur] at h
      cases h
      exact hacc
    case pos =>
      rw [if_pos hcur] at h
      set E := chooseEnd opts blocks s cursor with hE
      set CT := jsSlice s.text cursor E with hCT
      have hgood : ChunkGood orig (createChunk s CT cursor title) := by
        rcases le_or_lt 0 cursor with h0 | hneg
        · refine createChunk_good orig s title hsec cursor h0 (by omega) CT ?_
          refine take_own_length (m := jsNorm s.text.length E - cursor.toNat) ?_
          rw [hCT, jsSlice_eq_drop_take, jsNorm_of_nonneg h0,
            min_eq_left (by omega)]
        · obtain ⟨b, hbmem, hb1, hbig⟩ := hPI.resolve_left (by omega)
          have hEeq : E = cursor := by
            rw [hE]
            exact chooseEnd_neg opts blocks s cursor hneg b hbmem hb1 hbig hpw
              hblk hcs
          have hnil : CT = [] := by
            rw [hCT, hEeq]
            exact jsSlice_self _ _
          refine ⟨rfl, ?_⟩
          rw [hnil]
          simp only [createChunk, List.length_nil, Nat.cast_zero, add_zero]
          exact jsSlice_self _ _
      have hacc2 : ∀ c ∈ (if opts.minChunkSize ≤ (jsTrim CT).length ∨ cursor = 0
          then acc ++ [createChunk s CT cursor title] else acc),
          ChunkGood orig c := by
        split
        · intro c hc
          rcases List.mem_append.mp hc with hc2 | hc2
          · exact hacc c hc2
          · rw [List.mem_singleton] at hc2
            subst hc2
            exact hgood
        · exact hacc
      have hPI2 : PInv opts blocks s
          (if E - overlap ≤ cursor then E else E - overlap) := by
        rcases le_or_lt 0 cursor with h0 | hneg
        · split
          case isTrue =>
            rcases chooseEnd_step opts blocks s cursor h0 with hp
              | ⟨b, hbm, hb1, hbig⟩
            · exact .inl (by rw [hE]; exact hp)
            · exact .inr ⟨b, hbm, by rw [hE]; exact hb1, hbig⟩
          case isFalse hlt => exact .inl (by omega)
        · obtain ⟨b, hbmem, hb1, hbig⟩ := hPI.resolve_left (by omega)
          have hEeq : E = cursor := by
            rw [hE]
            exact chooseEnd_neg opts blocks s cursor hneg b hbmem hb1 hbig hpw
              hblk hcs
          rw [hEeq, if_pos (by omega)]
          exact hPI
      by_cases hnc : E - overlap ≤ cursor
      · rw [if_pos hnc] at h hPI2
        split at h
        · cases h
          exact hacc2
        · exact ih _ _ out hPI2 hacc2 h
      · rw [if_neg hnc] at h hPI2
        split at h
        · cases h
          exact hacc2
        · exact ih _ _ out hPI2 hacc2 h

lemma refineSection_good (opts : ChunkingOptions) (orig : Str) (s : MdSection)
    (blocks : List (Nat × Nat)) (title : Str)
    (hov : 0 ≤ opts.overlapThreshold) (hsec : SecGood orig s)
    (hblk : ∀ b ∈ blocks, b.1 < b.2)
    (hpw : blocks.Pairwise (fun a b => a.2 ≤ b.1)) :
    ∀ out, refineSection opts s blocks title = some out →
      ∀ c ∈ out, ChunkGood orig c := by
  intro out h
  simp only [refineSection] at h
  split at h
  case isTrue hle =>
    cases h
    intro c hc
    rw [List.mem_singleton] at hc
    subst hc
    refine createChunk_good orig s title hsec 0 (le_refl _) (by simp) s.text ?_
    simp
  case isFalse hgt =>
    intro c hc
    refine refineLoop_good opts orig s blocks title _ ?_ (by omega) hsec hblk hpw
      _ 0 [] out (.inl (le_refl 0)) (by intro c2 hc2; cases hc2) h c hc
    exact Int.floor_nonneg.mpr (mul_nonneg (by positivity) hov)

lemma splitByHeadingsAux_secGood (orig content : Str) (bo blo : Nat)
    (hco : content = orig.drop bo) :
    ∀ (ms : List HeadMatch) (lastIndex llc : Nat) (cur : List (Option Str))
      (s : MdSection),
      s ∈ splitByHeadingsAux content bo blo ms lastIndex llc cur →
      SecGood orig s := by
  intro ms
  induction ms with
  | nil =>
    intro li llc cur s hs
    simp only [splitByHeadingsAux] at hs
    split at hs
    case isTrue =>
      rw [List.mem_singleton] at hs
      subst hs
      show content.drop li = (orig.drop (bo + li)).take (content.drop li).length
      rw [hco, List.drop_drop]
      exact (List.take_length _).symm
    case isFalse => cases hs
  | cons m ms ih =>
    intro li llc cur s hs
    simp only [splitByHeadingsAux] at hs
    rw [List.mem_append] at hs
    rcases hs with hs | hs
    · split at hs
      case isTrue hlt =>
        split at hs
        case isTrue =>
          rw [List.mem_singleton] at hs
          subst hs
          show sliceN content li m.index
            = (orig.drop (bo + li)).take (sliceN content li m.index).length
          refine take_own_length (m := m.index - li) ?_
          rw [sliceN_eq_drop_take, hco, List.drop_drop]
        case isFalse => cases hs
      case isFalse => cases hs
    · exact ih _ _ _ s hs

lemma stripFrontmatter_content (opts : ChunkingOptions) (text : Str) :
    (stripFrontmatter opts text).content
      = text.drop (stripFrontmatter opts text).offset := by
  simp only [stripFrontmatter]
  split
  · split
    · exact (List.drop_zero _).symm
    · rfl
  · exact (List.drop_zero _).symm

lemma mapM_option_mem {α β} {f : α → Option β} :
    ∀ {xs : List α} {ys : List β}, xs.mapM f = some ys →
      ∀ y ∈ ys, ∃ x ∈ xs, f x = some y := by
  intro xs
  induction xs with
  | nil =>
    intro ys h y hy
    simp only [List.mapM_nil, pure, Option.some_inj] at h
    subst h
    cases hy
  | cons a as ih =>
    intro ys h y hy
    rw [List.mapM_cons] at h
    cases hfa : f a with
    | none => rw [hfa] at h; simp at h
    | some b =>
      rw [hfa] at h
      cases hrest : as.mapM f with
      | none => rw [hrest] at h; simp at h
      | some bs =>
        rw [hrest] at h
        simp only [Option.bind_eq_bind, Option.some_bind, pure,
          Option.some_inj] at h
        subst h
        rcases List.mem_cons.mp hy with rfl | hy2
        · exact ⟨a, List.mem_cons_self _ _, hfa⟩
        · obtain ⟨x, hx, hfx⟩ := ih hrest y hy2
          exact ⟨x, List.mem_cons_of_mem _ hx, hfx⟩

lemma renumber_fields {fp : Str} :
    ∀ (i : Nat) (cs : List BaizeChunk) (c : BaizeChunk),
      c ∈ renumber fp i cs →
      ∃ c0 ∈ cs, c.text = c0.text ∧ c.offsetStart = c0.offsetStart ∧
        c.offsetEnd = c0.offsetEnd := by
  intro i cs
  induction cs generalizing i with
  | nil => intro c hc; cases hc
  | cons a t ih =>
    intro c hc
    simp only [renumber] at hc
    rcases List.mem_cons.mp hc with rfl | hc2
    · exact ⟨a, List.mem_cons_self _ _, rfl, rfl, rfl⟩
    · obtain ⟨c0, hc0, hf⟩ := ih (i + 1) c hc2
      exact ⟨c0, List.mem_cons_of_mem _ hc0, hf⟩

/-- **C3.** Offset round-trip: for every passage returned by `chunk`,
slicing the original pre-frontmatter-stripping document from the passage's
`offsetStart` to its `offsetEnd` yields exactly the passage's text (the
stripped frontmatter length is added back into the offsets).  Stated for
any options with a non-negative overlap ratio (the documented domain,
satisfied by the defaults). -/
theorem C3_offset_roundtrip (opts : ChunkingOptions)
    (text filePath fileTitle : Str) (hov : 0 ≤ opts.overlapThreshold)
    (cs : List BaizeChunk) (h : chunkOpt opts text filePath fileTitle = some cs) :
    ∀ c ∈ cs, c.offsetEnd = c.offsetStart + c.text.length ∧
      jsSlice text c.offsetStart c.offsetEnd = c.text := by
  intro c hc
  simp only [chunkOpt] at h
  cases hmm : (splitByHeadings (stripFrontmatter opts text).content
      (stripFrontmatter opts text).offset
      (stripFrontmatter opts text).lineOffset).mapM
      (fun s => refineSection opts s
        (findCodeBlocks (stripFrontmatter opts text).content) fileTitle) with
  | none => rw [hmm] at h; simp at h
  | some ls =>
    rw [hmm] at h
    have hcs : renumber filePath 0 ls.flatten = cs := Option.some_injective _ h
    rw [← hcs] at hc
    obtain ⟨c0, hc0mem, ht, hos, hoe⟩ := renumber_fields 0 ls.flatten c hc
    obtain ⟨l, hl, hc0l⟩ := List.mem_flatten.mp hc0mem
    obtain ⟨sct, hsct, hrefine⟩ := mapM_option_mem hmm l hl
    have hsec : SecGood text sct :=
      splitByHeadingsAux_secGood text (stripFrontmatter opts text).content
        (stripFrontmatter opts text).offset
        (stripFrontmatter opts text).lineOffset
        (stripFrontmatter_content opts text) _ 0 0 [] sct hsct
    obtain ⟨hinvmem, hinvpw⟩ :=
      findCodeBlocksAux_inv (stripFrontmatter opts text).content
        ((stripFrontmatter opts text).content.length + 1) 0
    have hgood : ChunkGood text c0 :=
      refineSection_good opts text sct _ fileTitle hov hsec
        (fun b hb => by have := (hinvmem b hb).2; omega) hinvpw l hrefine c0 hc0l
    constructor
    · rw [hoe, hos, ht]
      exact hgood.1
    · rw [hoe, hos, ht]
      exact hgood.2

/-- The concrete chunk of the C3 witness. -/
def c3c : BaizeChunk :=
  { index := 0
    text := ofString ("# A\n\nshort text")
    offsetStart := 0
    offsetEnd := 15
    lineStart := 1
    lineEnd := 3
    vectorId := ofString ("p.md::0")
    metadata :=
      { title := ofString ("T")
        headings := [some (ofString ("# A"))]
        tags := []
        file_size := 0
        file_mtime := 0 } }

/-- Witness for C3 at a concrete document. -/
theorem C3_offset_roundtrip_witness :
    c3c.offsetEnd = c3c.offsetStart + c3c.text.length ∧
      jsSlice (ofString ("# A\n\nshort text")) c3c.offsetStart c3c.offsetEnd
        = c3c.text :=
  C3_offset_roundtrip DEFAULT_CHUNKING_OPTIONS (ofString ("# A\n\nshort text"))
    (ofString ("p.md")) (ofString ("T")) (by norm_num [DEFAULT_CHUNKING_OPTIONS])
    [c3c] (by decide) c3c (by decide)

end Baize
